import Mathlib

/-!
Verification of the NeoDataSync replicated-map module
(`Source/NeoDataSync/Public/NeoReplicatedData.h`,
 `Source/NeoDataSync/Private/NeoReplicatedData.cpp`).

The C++ data model is shallowly embedded: `FInstancedStruct` becomes a
type tag (`Option Nat`, `none` = invalid/null script struct) together with
the raw byte image of the stored struct instance; the engine's
per-property instanced-struct equality is modelled from the spec's words
through a registry of shape layouts (declared-field byte offsets versus
padding); the record store becomes a list of entries plus the owner
back-reference flag; notification broadcasts become explicit event lists
returned by the mutating operations.
-/

set_option autoImplicit false

namespace NeoDataSync

/-- Engine-side `FInstancedStruct`: a script-struct type tag plus the raw
memory block of the stored struct instance (one `Nat` per byte, so the
list length plays the role of `GetStructureSize()`). `scriptStruct = none`
models an invalid instance (`GetScriptStruct()` returning null). -/
structure FInstancedStruct where
  scriptStruct : Option Nat
  memory : List Nat
deriving DecidableEq, Repr

/-- `FInstancedStruct::IsValid()`. -/
def FInstancedStruct.IsValid (s : FInstancedStruct) : Bool :=
  s.scriptStruct.isSome

/-- A struct shape's memory layout: the structure size and the byte
offsets occupied by declared fields; every other byte of the block is
padding. -/
structure SpecShapeLayout where
  size : Nat
  fieldBytes : List Nat

/-- Logical field values of a struct instance (spec §3: keys compare
"under the shape's own equality (not raw memory comparison)"): the bytes
at the declared field offsets. -/
def specLogicalFieldValues (L : SpecShapeLayout) (mem : List Nat) : List Nat :=
  L.fieldBytes.map (fun i => mem.getD i 0)

/-- Modelled from the spec: the engine's registered shape information
used by `FInstancedStruct::operator==` (engine code, absent from src/).
Each registered tag maps to its memory layout. Tag 1 is a two-byte shape
whose single declared field is byte 0 — byte 1 is padding; every other
tag is a padding-free shape whose declared fields are its first eight
bytes. -/
def shapeLayout : Nat → SpecShapeLayout
  | 1 => SpecShapeLayout.mk 2 [0]
  | _ => SpecShapeLayout.mk 8 [0, 1, 2, 3, 4, 5, 6, 7]

/-- Modelled from the spec: engine `FInstancedStruct::operator==`
(absent from src/). Per spec §3, two instances are equal iff the type
tags match and the payload values are equal under the shape's own
per-property equality — the logical field values per the shape's layout,
skipping padding — not raw memory comparison; two invalid instances
compare equal. -/
def FInstancedStruct.beq (a b : FInstancedStruct) : Bool :=
  a.scriptStruct == b.scriptStruct &&
    (match a.scriptStruct with
     | some tag =>
        specLogicalFieldValues (shapeLayout tag) a.memory ==
          specLogicalFieldValues (shapeLayout tag) b.memory
     | none => true)

/-- The content the engine's per-property comparison observes: the type
tag together with the logical field values of the instance. -/
def FInstancedStruct.fingerprint (s : FInstancedStruct) : Option Nat × List Nat :=
  match s.scriptStruct with
  | some tag => (some tag, specLogicalFieldValues (shapeLayout tag) s.memory)
  | none => (none, [])

/-- `FRecordKey` (`NeoReplicatedData.h:22-53`): wraps a `KeyData`
instanced struct. -/
structure FRecordKey where
  keyData : FInstancedStruct
deriving DecidableEq, Repr

/-- `FRecordKey::operator==` (`NeoReplicatedData.h:32-36`): delegates to
`FInstancedStruct` equality on `KeyData`. -/
def FRecordKey.eq (a b : FRecordKey) : Bool :=
  FInstancedStruct.beq a.keyData b.keyData

/-- Model of the engine's `FCrc::MemCrc32(data, size)`: a deterministic
32-bit checksum computed from the full raw byte range, padding bytes
included. The concrete mixing function is irrelevant to the claims; what
matters is that it is a function of every byte of the block. -/
def MemCrc32 (bytes : List Nat) : Nat :=
  bytes.foldl (fun crc b => (crc * 31 + b % 256) % 4294967296) 5381

/-- `GetTypeHash(const FRecordKey&)` (`NeoReplicatedData.h:38-52`): if the
key data is valid, CRC of the raw struct memory over the whole structure
size; otherwise 0. -/
def GetTypeHash (key : FRecordKey) : Nat :=
  if key.keyData.IsValid then MemCrc32 key.keyData.memory else 0

/-- `FRecordDefinition` (`NeoReplicatedData.h:60-69`): wraps a `Payload`
instanced struct. -/
structure FRecordDefinition where
  payload : FInstancedStruct
deriving DecidableEq, Repr

/-- `FNeoDataEntry` (`NeoReplicatedData.h:112-135`): one (key, value)
record of the replicated map. -/
structure FNeoDataEntry where
  key : FRecordKey
  value : FRecordDefinition
deriving DecidableEq, Repr

/-- `FNeoDataEntry::operator==` (`NeoReplicatedData.h:131-134`): compares
only the `Key` field. -/
def FNeoDataEntry.eq (a b : FNeoDataEntry) : Bool :=
  FRecordKey.eq a.key b.key

/-- The notifications routed through the owner component's delegates
(`OnKeyAdded`, `OnKeyUpdated`, `OnKeyRemoved`). -/
inductive NeoEvent where
  | added (key : FRecordKey) (value : FRecordDefinition)
  | updated (key : FRecordKey) (value : FRecordDefinition)
  | removed (key : FRecordKey)
deriving DecidableEq, Repr

/-- `FNeoDataMap` (`NeoReplicatedData.h:141-163`): the entry array plus
the owner back-reference. `owner = true` models a non-null `Owner`
pointer; the events a mutation broadcasts through it are returned
explicitly. -/
structure FNeoDataMap where
  items : List FNeoDataEntry
  owner : Bool
deriving DecidableEq, Repr

/-- Body of `FNeoDataMap::AddOrUpdate` (`NeoReplicatedData.cpp:39-70`) on
the entry array: `Items.FindByPredicate` scans for the first entry whose
`Key == Key`; if found its `Value` is overwritten in place, otherwise a
new entry is appended with `Items.Add_GetRef`. The returned flag records
whether an existing entry was found (update) or not (add). -/
def addOrUpdateItems : List FNeoDataEntry → FRecordKey → FRecordDefinition →
    List FNeoDataEntry × Bool
  | [], k, v => ([FNeoDataEntry.mk k v], false)
  | e :: rest, k, v =>
    if FRecordKey.eq e.key k then
      (FNeoDataEntry.mk e.key v :: rest, true)
    else
      let r := addOrUpdateItems rest k v
      (e :: r.1, r.2)

/-- `FNeoDataMap::AddOrUpdate` (`NeoReplicatedData.cpp:39-70`): mutates
the entry array and, when `Owner` is non-null, broadcasts exactly one
`Updated` (existing key) or `Added` (new key) notification. -/
def FNeoDataMap.AddOrUpdate (m : FNeoDataMap) (k : FRecordKey)
    (v : FRecordDefinition) : FNeoDataMap × List NeoEvent :=
  let r := addOrUpdateItems m.items k v
  ({ m with items := r.1 },
   if m.owner then
     [if r.2 then NeoEvent.updated k v else NeoEvent.added k v]
   else [])

/-- Result of the `FNeoDataMap::Remove` iterator loop: the final entry
array, the notifications broadcast, and — for each notification — the
contents of the entry array at the moment the callback ran. -/
structure RemoveOut where
  items : List FNeoDataEntry
  events : List NeoEvent
  snapshots : List (List FNeoDataEntry)
deriving DecidableEq, Repr

/-- Loop body of `FNeoDataMap::Remove` (`NeoReplicatedData.cpp:72-89`):
`seen` holds the entries the iterator has already passed over (still in
the array). On the first entry whose `Key == Key`, `NotifyKeyRemoved` is
broadcast (if `Owner` is non-null) while the array still holds every
entry, then `It.RemoveCurrent()` deletes that entry and the function
returns. If no entry matches, the array is left unchanged. -/
def removeLoop (owner : Bool) (seen : List FNeoDataEntry) :
    List FNeoDataEntry → FRecordKey → RemoveOut
  | [], _ => RemoveOut.mk seen [] []
  | e :: rest, k =>
    if FRecordKey.eq e.key k then
      RemoveOut.mk (seen ++ rest)
        (if owner then [NeoEvent.removed k] else [])
        (if owner then [seen ++ e :: rest] else [])
    else
      removeLoop owner (seen ++ [e]) rest k

/-- `FNeoDataMap::Remove` with the notification-time snapshots kept. -/
def FNeoDataMap.RemoveTrace (m : FNeoDataMap) (k : FRecordKey) : RemoveOut :=
  removeLoop m.owner [] m.items k

/-- `FNeoDataMap::Remove` (`NeoReplicatedData.cpp:72-89`): final map and
broadcast notifications. -/
def FNeoDataMap.Remove (m : FNeoDataMap) (k : FRecordKey) :
    FNeoDataMap × List NeoEvent :=
  let r := m.RemoveTrace k
  ({ m with items := r.items }, r.events)

/-- `FNeoDataMap::Find` (`NeoReplicatedData.cpp:91-98`) on the entry
array: first entry whose `Key == Key`, if any. -/
def FNeoDataMap.FindIn : List FNeoDataEntry → FRecordKey → Option FRecordDefinition
  | [], _ => none
  | e :: rest, k =>
    if FRecordKey.eq e.key k then some e.value else FNeoDataMap.FindIn rest k

/-- `FNeoDataMap::Find` (`NeoReplicatedData.cpp:91-98`). -/
def FNeoDataMap.Find (m : FNeoDataMap) (k : FRecordKey) : Option FRecordDefinition :=
  FNeoDataMap.FindIn m.items k

/-- Replication hook `FNeoDataEntry::PreReplicatedRemove`
(`NeoReplicatedData.cpp:11-17`): notifies only when `Owner` is non-null. -/
def FNeoDataEntry.PreReplicatedRemove (e : FNeoDataEntry) (m : FNeoDataMap) :
    List NeoEvent :=
  if m.owner then [NeoEvent.removed e.key] else []

/-- Replication hook `FNeoDataEntry::PostReplicatedAdd`
(`NeoReplicatedData.cpp:19-25`): notifies only when `Owner` is non-null. -/
def FNeoDataEntry.PostReplicatedAdd (e : FNeoDataEntry) (m : FNeoDataMap) :
    List NeoEvent :=
  if m.owner then [NeoEvent.added e.key e.value] else []

/-- Replication hook `FNeoDataEntry::PostReplicatedChange`
(`NeoReplicatedData.cpp:27-33`): notifies only when `Owner` is non-null. -/
def FNeoDataEntry.PostReplicatedChange (e : FNeoDataEntry) (m : FNeoDataMap) :
    List NeoEvent :=
  if m.owner then [NeoEvent.updated e.key e.value] else []

/-- `UNeoReplicatedDataComponent` (`NeoReplicatedData.h:185-294`): the
replicated map plus the optional schema restrictions. The constructor
(`NeoReplicatedData.cpp:113-117`) sets `DataMap.Owner = this`, i.e.
`dataMap.owner = true`. -/
structure UNeoReplicatedDataComponent where
  dataMap : FNeoDataMap
  restrictedKeyType : Option Nat
  restrictedValueType : Option Nat
deriving DecidableEq, Repr

/-- Key-schema check of `UNeoReplicatedDataComponent::SetData`
(`NeoReplicatedData.cpp:128-140`): rejected iff `RestrictedKeyType` is
non-null and `Key.KeyData.GetScriptStruct() != RestrictedKeyType`. -/
def UNeoReplicatedDataComponent.KeyTypeRejected
    (c : UNeoReplicatedDataComponent) (k : FRecordKey) : Bool :=
  match c.restrictedKeyType with
  | some s => !(k.keyData.scriptStruct == some s)
  | none => false

/-- Value-schema check of `UNeoReplicatedDataComponent::SetData`
(`NeoReplicatedData.cpp:142-154`): rejected iff `RestrictedValueType` is
non-null and `Value.Payload.GetScriptStruct() != RestrictedValueType`. -/
def UNeoReplicatedDataComponent.ValueTypeRejected
    (c : UNeoReplicatedDataComponent) (v : FRecordDefinition) : Bool :=
  match c.restrictedValueType with
  | some s => !(v.payload.scriptStruct == some s)
  | none => false

/-- `UNeoReplicatedDataComponent::SetData` (`NeoReplicatedData.cpp:126-157`):
validate the key type, then the value type; on rejection return (after a
log line) leaving the map untouched, otherwise delegate to
`DataMap.AddOrUpdate`. -/
def UNeoReplicatedDataComponent.SetData (c : UNeoReplicatedDataComponent)
    (k : FRecordKey) (v : FRecordDefinition) :
    UNeoReplicatedDataComponent × List NeoEvent :=
  if c.KeyTypeRejected k then (c, [])
  else if c.ValueTypeRejected v then (c, [])
  else
    let r := c.dataMap.AddOrUpdate k v
    ({ c with dataMap := r.1 }, r.2)

/-- `UNeoReplicatedDataComponent::RemoveData` (`NeoReplicatedData.cpp:159-162`). -/
def UNeoReplicatedDataComponent.RemoveData (c : UNeoReplicatedDataComponent)
    (k : FRecordKey) : UNeoReplicatedDataComponent × List NeoEvent :=
  let r := c.dataMap.Remove k
  ({ c with dataMap := r.1 }, r.2)

/-- `UNeoReplicatedDataComponent::GetData` (`NeoReplicatedData.cpp:164-172`):
the `(found, OutValue)` pair is modelled as an `Option`. -/
def UNeoReplicatedDataComponent.GetData (c : UNeoReplicatedDataComponent)
    (k : FRecordKey) : Option FRecordDefinition :=
  c.dataMap.Find k

/-- `UNeoReplicatedDataComponent::GetKeys` (`NeoReplicatedData.cpp:174-183`):
builds a fresh array by appending `Entry.Key` for each entry in storage
order. -/
def UNeoReplicatedDataComponent.GetKeys (c : UNeoReplicatedDataComponent) :
    List FRecordKey :=
  c.dataMap.items.foldl (fun keys e => keys ++ [e.key]) []

/-- The entry array produced by a successful `Remove`, without the
notification bookkeeping: drop the first entry whose key matches. Proved
below to coincide with the `items` field of `removeLoop`. -/
def removeSimple : List FNeoDataEntry → FRecordKey → List FNeoDataEntry
  | [], _ => []
  | e :: rest, k =>
    if FRecordKey.eq e.key k then rest else e :: removeSimple rest k

/-- Number of entries of the array whose key matches `k` under
`FRecordKey::operator==`. -/
def countKey (items : List FNeoDataEntry) (k : FRecordKey) : Nat :=
  items.countP (fun e => FRecordKey.eq e.key k)

/-- Whether some entry of the array has a key matching `k` under
`FRecordKey::operator==`. -/
def containsKey (items : List FNeoDataEntry) (k : FRecordKey) : Bool :=
  items.any (fun e => FRecordKey.eq e.key k)

/-- The store's one-entry-per-key invariant: no two stored keys compare
equal under `FRecordKey::operator==`. -/
def distinctKeys (items : List FNeoDataEntry) : Prop :=
  (items.map FNeoDataEntry.key).Pairwise (fun a b => FRecordKey.eq a b = false)

/-- A mutation of the record store: `SetData`-style add-or-update, or
`RemoveData`-style removal. -/
inductive StoreOp where
  | set (k : FRecordKey) (v : FRecordDefinition)
  | del (k : FRecordKey)

/-- Apply one mutation to the map (notifications discarded). -/
def applyOp (m : FNeoDataMap) : StoreOp → FNeoDataMap
  | StoreOp.set k v => (m.AddOrUpdate k v).1
  | StoreOp.del k => (m.Remove k).1

/-- Apply a sequence of mutations, oldest first. -/
def applyOps (m : FNeoDataMap) (ops : List StoreOp) : FNeoDataMap :=
  ops.foldl applyOp m

/-- One step of the specification-side lookup fold for `specMostRecentValue`. -/
def specStep (k : FRecordKey) (acc : Option FRecordDefinition) :
    StoreOp → Option FRecordDefinition
  | StoreOp.set k2 v => if FRecordKey.eq k2 k then some v else acc
  | StoreOp.del k2 => if FRecordKey.eq k2 k then none else acc

/-- Specification-side reference semantics, following the spec's words:
the value passed to the most recent `add_or_update` for the key that is
not followed by a `remove` of that key, and `none` otherwise. -/
def specMostRecentValue (ops : List StoreOp) (k : FRecordKey) :
    Option FRecordDefinition :=
  ops.foldl (specStep k) none

/-- The layout of shape tag 1: a two-byte shape whose single declared
field occupies byte 0; byte 1 is padding. -/
def exLayout : SpecShapeLayout := shapeLayout 1

/-- A key of shape tag 1 with field byte 1 and padding byte 0. -/
def exKeyA : FRecordKey := FRecordKey.mk (FInstancedStruct.mk (some 1) [1, 0])

/-- A key of shape tag 1 with the same field byte as `exKeyA` but padding
byte 5. -/
def exKeyB : FRecordKey := FRecordKey.mk (FInstancedStruct.mk (some 1) [1, 5])

/-- A concrete key used to instantiate witnesses. -/
def wKey1 : FRecordKey := FRecordKey.mk (FInstancedStruct.mk (some 2) [7])

/-- A second concrete key, not matching `wKey1`. -/
def wKey2 : FRecordKey := FRecordKey.mk (FInstancedStruct.mk (some 2) [8])

/-- A concrete value used to instantiate witnesses. -/
def wVal1 : FRecordDefinition :=
  FRecordDefinition.mk (FInstancedStruct.mk (some 3) [9])

/-- A second concrete value with the same shape tag as `wVal1`. -/
def wVal2 : FRecordDefinition :=
  FRecordDefinition.mk (FInstancedStruct.mk (some 3) [10])

/-- A concrete component whose key schema is restricted to struct tag 5,
with an empty store and the owner back-reference wired up as the
constructor does. -/
def wComp : UNeoReplicatedDataComponent :=
  UNeoReplicatedDataComponent.mk (FNeoDataMap.mk [] true) (some 5) none

/-- `FInstancedStruct` equality holds exactly when the per-property
fingerprints (tag plus logical field values) agree. -/
theorem FInstancedStruct.beq_iff_fp (a b : FInstancedStruct) :
    FInstancedStruct.beq a b = true ↔ a.fingerprint = b.fingerprint := by
  cases a with
  | mk sa ma =>
    cases b with
    | mk sb mb =>
      cases sa with
      | none =>
        cases sb with
        | none =>
          simp [FInstancedStruct.beq, FInstancedStruct.fingerprint]
        | some tb =>
          simp [FInstancedStruct.beq, FInstancedStruct.fingerprint]
      | some ta =>
        cases sb with
        | none =>
          simp [FInstancedStruct.beq, FInstancedStruct.fingerprint]
        | some tb =>
          by_cases ht : ta = tb
          · subst ht
            simp [FInstancedStruct.beq, FInstancedStruct.fingerprint]
          · simp [FInstancedStruct.beq, FInstancedStruct.fingerprint, ht]

/-- `FRecordKey` equality holds exactly when the key-data fingerprints
agree. -/
theorem FRecordKey.eq_iff_fp (a b : FRecordKey) :
    FRecordKey.eq a b = true ↔
      a.keyData.fingerprint = b.keyData.fingerprint :=
  FInstancedStruct.beq_iff_fp a.keyData b.keyData

/-- `FRecordKey` equality is reflexive. -/
theorem FRecordKey.eq_refl (a : FRecordKey) : FRecordKey.eq a a = true :=
  (FRecordKey.eq_iff_fp a a).2 rfl

/-- `FRecordKey` equality is symmetric. -/
theorem FRecordKey.eq_symm_true (a b : FRecordKey)
    (h : FRecordKey.eq a b = true) : FRecordKey.eq b a = true :=
  (FRecordKey.eq_iff_fp b a).2 ((FRecordKey.eq_iff_fp a b).1 h).symm

/-- `FRecordKey` equality is transitive. -/
theorem FRecordKey.eq_trans_true (a b c : FRecordKey)
    (h1 : FRecordKey.eq a b = true) (h2 : FRecordKey.eq b c = true) :
    FRecordKey.eq a c = true :=
  (FRecordKey.eq_iff_fp a c).2
    (((FRecordKey.eq_iff_fp a b).1 h1).trans ((FRecordKey.eq_iff_fp b c).1 h2))

/-- Matching against either of two equal keys gives the same answer. -/
theorem FRecordKey.eq_congr_right (q1 q2 x : FRecordKey)
    (h : FRecordKey.eq q1 q2 = true) :
    FRecordKey.eq x q1 = FRecordKey.eq x q2 := by
  cases hx : FRecordKey.eq x q1 with
  | true => exact (FRecordKey.eq_trans_true x q1 q2 hx h).symm
  | false =>
    cases hx2 : FRecordKey.eq x q2 with
    | true =>
      have ht := FRecordKey.eq_trans_true x q2 q1 hx2
        (FRecordKey.eq_symm_true q1 q2 h)
      rw [hx] at ht
      exact ht
    | false => rfl

/-- A false boolean disjunction has two false parts. -/
theorem bool_or_false {a b : Bool} (h : (a || b) = false) :
    a = false ∧ b = false := by
  cases a <;> cases b <;> simp_all

/-- `Find` succeeds exactly when some stored key matches. -/
theorem findIn_isSome_eq_contains (k : FRecordKey) (items : List FNeoDataEntry) :
    (FNeoDataMap.FindIn items k).isSome = containsKey items k := by
  induction items with
  | nil => rfl
  | cons e rest ih =>
    cases he : FRecordKey.eq e.key k with
    | true => simp [FNeoDataMap.FindIn, containsKey, List.any_cons, he]
    | false => simp [FNeoDataMap.FindIn, containsKey, List.any_cons, he, ih]

/-- `Find` misses when no stored key matches. -/
theorem findIn_none_of_not_contains (k : FRecordKey)
    (items : List FNeoDataEntry) (h : containsKey items k = false) :
    FNeoDataMap.FindIn items k = none := by
  induction items with
  | nil => rfl
  | cons e rest ih =>
    simp only [containsKey, List.any_cons] at h
    obtain ⟨h1, h2⟩ := bool_or_false h
    simp [FNeoDataMap.FindIn, h1, ih h2]

/-- Looking up either of two matching keys gives the same result. -/
theorem findIn_query_congr (items : List FNeoDataEntry) (q1 q2 : FRecordKey)
    (h : FRecordKey.eq q1 q2 = true) :
    FNeoDataMap.FindIn items q1 = FNeoDataMap.FindIn items q2 := by
  induction items with
  | nil => rfl
  | cons e rest ih =>
    simp only [FNeoDataMap.FindIn, FRecordKey.eq_congr_right q1 q2 e.key h, ih]

/-- The found-flag of `AddOrUpdate` is set exactly when some stored key
matches. -/
theorem addOrUpdateItems_flag (items : List FNeoDataEntry) (k : FRecordKey)
    (v : FRecordDefinition) :
    (addOrUpdateItems items k v).2 = containsKey items k := by
  induction items with
  | nil => rfl
  | cons e rest ih =>
    cases he : FRecordKey.eq e.key k with
    | true => simp [addOrUpdateItems, containsKey, List.any_cons, he]
    | false => simp [addOrUpdateItems, containsKey, List.any_cons, he, ih]

/-- When no stored key matches, `AddOrUpdate` appends the new entry. -/
theorem addOrUpdateItems_not_contains (items : List FNeoDataEntry)
    (k : FRecordKey) (v : FRecordDefinition)
    (h : containsKey items k = false) :
    addOrUpdateItems items k v = (items ++ [FNeoDataEntry.mk k v], false) := by
  induction items with
  | nil => rfl
  | cons e rest ih =>
    simp only [containsKey, List.any_cons] at h
    obtain ⟨h1, h2⟩ := bool_or_false h
    simp [addOrUpdateItems, h1, ih h2]

/-- When some stored key matches, `AddOrUpdate` keeps the key list
unchanged (only the first matching entry's value is overwritten). -/
theorem addOrUpdateItems_keys_of_contains (items : List FNeoDataEntry)
    (k : FRecordKey) (v : FRecordDefinition)
    (h : containsKey items k = true) :
    (addOrUpdateItems items k v).1.map FNeoDataEntry.key =
      items.map FNeoDataEntry.key := by
  induction items with
  | nil => simp [containsKey] at h
  | cons e rest ih =>
    cases he : FRecordKey.eq e.key k with
    | true => simp [addOrUpdateItems, he]
    | false =>
      have hrest : containsKey rest k = true := by
        simpa [containsKey, List.any_cons, he] using h
      simp [addOrUpdateItems, he, ih hrest]

/-- After `AddOrUpdate`, looking up the written key yields the written
value. -/
theorem findIn_addOrUpdate_self (items : List FNeoDataEntry) (k : FRecordKey)
    (v : FRecordDefinition) :
    FNeoDataMap.FindIn (addOrUpdateItems items k v).1 k = some v := by
  induction items with
  | nil => simp [addOrUpdateItems, FNeoDataMap.FindIn, FRecordKey.eq_refl]
  | cons e rest ih =>
    cases he : FRecordKey.eq e.key k with
    | true => simp [addOrUpdateItems, he, FNeoDataMap.FindIn]
    | false => simp [addOrUpdateItems, he, FNeoDataMap.FindIn, ih]

/-- `AddOrUpdate` leaves the lookup of every non-matching key unchanged. -/
theorem findIn_addOrUpdate_other (items : List FNeoDataEntry)
    (upd : FRecordKey) (v : FRecordDefinition) (q : FRecordKey)
    (h : FRecordKey.eq upd q = false) :
    FNeoDataMap.FindIn (addOrUpdateItems items upd v).1 q =
      FNeoDataMap.FindIn items q := by
  induction items with
  | nil => simp [addOrUpdateItems, FNeoDataMap.FindIn, h]
  | cons e rest ih =>
    cases he : FRecordKey.eq e.key upd with
    | true =>
      have hq : FRecordKey.eq e.key q = false := by
        cases hq2 : FRecordKey.eq e.key q with
        | false => rfl
        | true =>
          have ht := FRecordKey.eq_trans_true upd e.key q
            (FRecordKey.eq_symm_true e.key upd he) hq2
          rw [h] at ht
          exact ht.symm
      simp [addOrUpdateItems, he, FNeoDataMap.FindIn, hq]
    | false => simp [addOrUpdateItems, he, FNeoDataMap.FindIn, ih]

/-- Re-running the same `AddOrUpdate` finds the entry written by the
first run and rewrites the same value: the entry array is unchanged. -/
theorem addOrUpdateItems_idem (items : List FNeoDataEntry) (k : FRecordKey)
    (v : FRecordDefinition) :
    addOrUpdateItems (addOrUpdateItems items k v).1 k v =
      ((addOrUpdateItems items k v).1, true) := by
  induction items with
  | nil => simp [addOrUpdateItems, FRecordKey.eq_refl]
  | cons e rest ih =>
    cases he : FRecordKey.eq e.key k with
    | true => simp [addOrUpdateItems, he]
    | false => simp [addOrUpdateItems, he, ih]

/-- Unfolding `countKey` over a cons cell. -/
theorem countKey_cons (e : FNeoDataEntry) (rest : List FNeoDataEntry)
    (k : FRecordKey) :
    countKey (e :: rest) k =
      countKey rest k + (if FRecordKey.eq e.key k = true then 1 else 0) := by
  simp [countKey, List.countP_cons]

/-- An unmatched key has multiplicity zero. -/
theorem countKey_eq_zero_of_not_contains (items : List FNeoDataEntry)
    (k : FRecordKey) (h : containsKey items k = false) :
    countKey items k = 0 := by
  induction items with
  | nil => rfl
  | cons e rest ih =>
    simp only [containsKey, List.any_cons] at h
    obtain ⟨h1, h2⟩ := bool_or_false h
    rw [countKey_cons]
    simp [h1, ih h2]

/-- Head decomposition of the one-entry-per-key invariant. -/
theorem distinctKeys_cons_iff (e : FNeoDataEntry)
    (rest : List FNeoDataEntry) :
    distinctKeys (e :: rest) ↔
      (∀ b ∈ rest.map FNeoDataEntry.key, FRecordKey.eq e.key b = false) ∧
      distinctKeys rest := by
  simp [distinctKeys, List.pairwise_cons]

/-- The one-entry-per-key invariant implies the key list carries no
duplicate key values. -/
theorem nodup_of_distinctKeys (items : List FNeoDataEntry)
    (h : distinctKeys items) : (items.map FNeoDataEntry.key).Nodup := by
  refine List.Pairwise.imp ?_ h
  intro a b hab heq
  rw [heq, FRecordKey.eq_refl b] at hab
  exact Bool.noConfusion hab

/-- Under the invariant, `AddOrUpdate` leaves exactly one entry whose key
matches the written key. -/
theorem countKey_addOrUpdate_one (items : List FNeoDataEntry)
    (k : FRecordKey) (v : FRecordDefinition) (hd : distinctKeys items) :
    countKey (addOrUpdateItems items k v).1 k = 1 := by
  induction items with
  | nil => simp [addOrUpdateItems, countKey, List.countP_cons, FRecordKey.eq_refl]
  | cons e rest ih =>
    obtain ⟨hhead, htail⟩ := (distinctKeys_cons_iff e rest).1 hd
    cases he : FRecordKey.eq e.key k with
    | true =>
      have hzero : countKey rest k = 0 := by
        apply countKey_eq_zero_of_not_contains
        cases hcc : containsKey rest k with
        | false => rfl
        | true =>
          simp only [containsKey, List.any_eq_true] at hcc
          obtain ⟨b, hb, hbk⟩ := hcc
          have h1 := FRecordKey.eq_trans_true e.key k b.key he
            (FRecordKey.eq_symm_true b.key k hbk)
          have h2 := hhead b.key (List.mem_map_of_mem FNeoDataEntry.key hb)
          rw [h2] at h1
          exact h1.symm
      rw [show (addOrUpdateItems (e :: rest) k v).1 =
        FNeoDataEntry.mk e.key v :: rest from by simp [addOrUpdateItems, he]]
      rw [countKey_cons]
      simp [he, hzero]
    | false =>
      rw [show (addOrUpdateItems (e :: rest) k v).1 =
        e :: (addOrUpdateItems rest k v).1 from by simp [addOrUpdateItems, he]]
      rw [countKey_cons]
      simp [he, ih htail]

/-- The entry array produced by the `Remove` loop is the scanned part
followed by `removeSimple` of the unscanned part. -/
theorem removeLoop_items (o : Bool) (k : FRecordKey) :
    ∀ (items seen : List FNeoDataEntry),
      (removeLoop o seen items k).items = seen ++ removeSimple items k := by
  intro items
  induction items with
  | nil => intro seen; simp [removeLoop, removeSimple]
  | cons e rest ih =>
    intro seen
    by_cases h : FRecordKey.eq e.key k = true
    · simp [removeLoop, removeSimple, h]
    · rw [Bool.not_eq_true] at h
      simp [removeLoop, removeSimple, h, ih]

/-- When the key is absent, the `Remove` loop scans through the whole
array, mutating nothing and notifying nobody. -/
theorem removeLoop_not_found (o : Bool) (k : FRecordKey) :
    ∀ (items seen : List FNeoDataEntry),
      containsKey items k = false →
      removeLoop o seen items k = RemoveOut.mk (seen ++ items) [] [] := by
  intro items
  induction items with
  | nil => intro seen _; simp [removeLoop]
  | cons e rest ih =>
    intro seen h
    simp only [containsKey, List.any_cons] at h
    obtain ⟨h1, h2⟩ := bool_or_false h
    simp [removeLoop, h1, ih (seen ++ [e]) h2]

/-- When the key is present and the owner back-reference is set, the
`Remove` loop emits exactly one `Removed` notification, and the array at
notification time is the scanned part plus everything not yet scanned —
nothing has been deleted yet. -/
theorem removeLoop_found (k : FRecordKey) :
    ∀ (items seen : List FNeoDataEntry),
      containsKey items k = true →
      (removeLoop true seen items k).events = [NeoEvent.removed k] ∧
      (removeLoop true seen items k).snapshots = [seen ++ items] := by
  intro items
  induction items with
  | nil => intro seen h; simp [containsKey] at h
  | cons e rest ih =>
    intro seen h
    cases he : FRecordKey.eq e.key k with
    | true => simp [removeLoop, he]
    | false =>
      have hrest : containsKey rest k = true := by
        simpa [containsKey, List.any_cons, he] using h
      have hih := ih (seen ++ [e]) hrest
      simp [removeLoop, he, hih.1, hih.2]

/-- The `Remove` loop never notifies when the owner back-reference is
null. -/
theorem removeLoop_no_owner (k : FRecordKey) :
    ∀ (items seen : List FNeoDataEntry),
      (removeLoop false seen items k).events = [] ∧
      (removeLoop false seen items k).snapshots = [] := by
  intro items
  induction items with
  | nil => intro seen; simp [removeLoop]
  | cons e rest ih =>
    intro seen
    cases he : FRecordKey.eq e.key k with
    | true => simp [removeLoop, he]
    | false => simp [removeLoop, he, ih (seen ++ [e])]

/-- `removeSimple` with an unmatched key is the identity. -/
theorem removeSimple_of_not_contains (items : List FNeoDataEntry)
    (k : FRecordKey) (h : containsKey items k = false) :
    removeSimple items k = items := by
  induction items with
  | nil => rfl
  | cons e rest ih =>
    simp only [containsKey, List.any_cons] at h
    obtain ⟨h1, h2⟩ := bool_or_false h
    simp [removeSimple, h1, ih h2]

/-- `removeSimple` yields a sublist of the original array. -/
theorem removeSimple_sublist (items : List FNeoDataEntry) (k : FRecordKey) :
    (removeSimple items k).Sublist items := by
  induction items with
  | nil => simp [removeSimple]
  | cons e rest ih =>
    by_cases he : FRecordKey.eq e.key k = true
    · simp [removeSimple, he]
    · rw [Bool.not_eq_true] at he
      simp only [removeSimple, he, Bool.false_eq_true, if_false]
      exact ih.cons₂ e

/-- Under the invariant, no entry matching the removed key survives
`removeSimple`. -/
theorem contains_removeSimple_false (items : List FNeoDataEntry)
    (k : FRecordKey) (hd : distinctKeys items) :
    containsKey (removeSimple items k) k = false := by
  induction items with
  | nil => rfl
  | cons e rest ih =>
    obtain ⟨hhead, htail⟩ := (distinctKeys_cons_iff e rest).1 hd
    cases he : FRecordKey.eq e.key k with
    | true =>
      simp only [removeSimple, he, if_true]
      cases hcc : containsKey rest k with
      | false => rfl
      | true =>
        simp only [containsKey, List.any_eq_true] at hcc
        obtain ⟨b, hb, hbk⟩ := hcc
        have h1 := FRecordKey.eq_trans_true e.key k b.key he
          (FRecordKey.eq_symm_true b.key k hbk)
        have h2 := hhead b.key (List.mem_map_of_mem FNeoDataEntry.key hb)
        rw [h2] at h1
        exact h1.symm
    | false =>
      simp only [removeSimple, he, Bool.false_eq_true, if_false]
      have hih := ih htail
      simp only [containsKey, List.any_cons] at hih ⊢
      rw [he, hih]
      rfl

/-- Under the invariant, re-running the same `Remove` finds no remaining
match: the entry array is unchanged. -/
theorem removeSimple_idem (items : List FNeoDataEntry) (k : FRecordKey)
    (hd : distinctKeys items) :
    removeSimple (removeSimple items k) k = removeSimple items k :=
  removeSimple_of_not_contains _ _ (contains_removeSimple_false items k hd)

/-- Under the invariant, looking up the removed key fails afterwards. -/
theorem findIn_removeSimple_self (items : List FNeoDataEntry)
    (k : FRecordKey) (hd : distinctKeys items) :
    FNeoDataMap.FindIn (removeSimple items k) k = none :=
  findIn_none_of_not_contains k _ (contains_removeSimple_false items k hd)

/-- Removing one key leaves the lookup of every non-matching key
unchanged. -/
theorem findIn_removeSimple_other (items : List FNeoDataEntry)
    (del q : FRecordKey) (h : FRecordKey.eq del q = false) :
    FNeoDataMap.FindIn (removeSimple items del) q =
      FNeoDataMap.FindIn items q := by
  induction items with
  | nil => rfl
  | cons e rest ih =>
    cases he : FRecordKey.eq e.key del with
    | true =>
      have hq : FRecordKey.eq e.key q = false := by
        cases hq2 : FRecordKey.eq e.key q with
        | false => rfl
        | true =>
          have ht := FRecordKey.eq_trans_true del e.key q
            (FRecordKey.eq_symm_true e.key del he) hq2
          rw [h] at ht
          exact ht.symm
      simp [removeSimple, he, FNeoDataMap.FindIn, hq]
    | false => simp [removeSimple, he, FNeoDataMap.FindIn, ih]

/-- The entry array after `FNeoDataMap.AddOrUpdate`. -/
theorem AddOrUpdate_items (m : FNeoDataMap) (k : FRecordKey)
    (v : FRecordDefinition) :
    (m.AddOrUpdate k v).1.items = (addOrUpdateItems m.items k v).1 := rfl

/-- `AddOrUpdate` does not touch the owner back-reference. -/
theorem AddOrUpdate_owner (m : FNeoDataMap) (k : FRecordKey)
    (v : FRecordDefinition) : (m.AddOrUpdate k v).1.owner = m.owner := rfl

/-- The entry array after `FNeoDataMap.Remove` is `removeSimple`. -/
theorem Remove_items (m : FNeoDataMap) (k : FRecordKey) :
    (m.Remove k).1.items = removeSimple m.items k := by
  simp [FNeoDataMap.Remove, FNeoDataMap.RemoveTrace, removeLoop_items]

/-- `Remove` does not touch the owner back-reference. -/
theorem Remove_owner (m : FNeoDataMap) (k : FRecordKey) :
    (m.Remove k).1.owner = m.owner := rfl

/-- `AddOrUpdate` preserves the one-entry-per-key invariant. -/
theorem distinct_addOrUpdate (items : List FNeoDataEntry) (k : FRecordKey)
    (v : FRecordDefinition) (hd : distinctKeys items) :
    distinctKeys (addOrUpdateItems items k v).1 := by
  cases hc : containsKey items k with
  | true =>
    unfold distinctKeys
    rw [addOrUpdateItems_keys_of_contains items k v hc]
    exact hd
  | false =>
    have hall : ∀ x ∈ items, FRecordKey.eq x.key k = false := by
      intro x hx
      cases hxx : FRecordKey.eq x.key k with
      | false => rfl
      | true =>
        have hcc : containsKey items k = true := by
          simp only [containsKey, List.any_eq_true]
          exact ⟨x, hx, hxx⟩
        rw [hc] at hcc
        exact hcc.symm
    rw [addOrUpdateItems_not_contains items k v hc]
    unfold distinctKeys
    rw [List.map_append, List.pairwise_append]
    refine ⟨hd, by simp, ?_⟩
    intro a ha b hb
    simp only [List.map_cons, List.map_nil, List.mem_singleton] at hb
    subst hb
    obtain ⟨e, he, rfl⟩ := List.mem_map.1 ha
    exact hall e he

/-- `removeSimple` preserves the one-entry-per-key invariant. -/
theorem distinct_removeSimple (items : List FNeoDataEntry) (k : FRecordKey)
    (hd : distinctKeys items) : distinctKeys (removeSimple items k) := by
  unfold distinctKeys at hd ⊢
  exact hd.sublist ((removeSimple_sublist items k).map FNeoDataEntry.key)

/-- One applied mutation preserves the one-entry-per-key invariant. -/
theorem distinct_applyOp (m : FNeoDataMap) (op : StoreOp)
    (hd : distinctKeys m.items) : distinctKeys (applyOp m op).items := by
  cases op with
  | set k v => exact distinct_addOrUpdate m.items k v hd
  | del k =>
    rw [show (applyOp m (StoreOp.del k)).items = (m.Remove k).1.items from rfl,
      Remove_items]
    exact distinct_removeSimple m.items k hd

/-- Per-operation lookup characterization: one applied mutation changes
`Find` exactly as the specification fold step describes. -/
theorem find_applyOp (m : FNeoDataMap) (op : StoreOp) (k : FRecordKey)
    (hd : distinctKeys m.items) :
    (applyOp m op).Find k = specStep k (m.Find k) op := by
  cases op with
  | set k2 v =>
    cases he : FRecordKey.eq k2 k with
    | true =>
      show FNeoDataMap.FindIn (addOrUpdateItems m.items k2 v).1 k = _
      rw [findIn_query_congr _ k k2 (FRecordKey.eq_symm_true k2 k he),
        findIn_addOrUpdate_self]
      simp [specStep, he]
    | false =>
      show FNeoDataMap.FindIn (addOrUpdateItems m.items k2 v).1 k = _
      rw [findIn_addOrUpdate_other m.items k2 v k he]
      simp [specStep, he]
      rfl
  | del k2 =>
    cases he : FRecordKey.eq k2 k with
    | true =>
      show FNeoDataMap.FindIn (m.Remove k2).1.items k = _
      rw [Remove_items, findIn_query_congr _ k k2 (FRecordKey.eq_symm_true k2 k he),
        findIn_removeSimple_self m.items k2 hd]
      simp [specStep, he]
    | false =>
      show FNeoDataMap.FindIn (m.Remove k2).1.items k = _
      rw [Remove_items, findIn_removeSimple_other m.items k2 k he]
      simp [specStep, he]
      rfl

/-- Every sequence of mutations preserves the invariant, and `Find` is
computed by folding the specification step over the sequence starting
from the initial lookup. -/
theorem applyOps_spec (ops : List StoreOp) :
    ∀ m : FNeoDataMap, distinctKeys m.items →
      distinctKeys (applyOps m ops).items ∧
      ∀ k, (applyOps m ops).Find k = ops.foldl (specStep k) (m.Find k) := by
  induction ops with
  | nil => exact fun m hd => ⟨hd, fun k => rfl⟩
  | cons op ops ih =>
    intro m hd
    obtain ⟨h1, h2⟩ := ih (applyOp m op) (distinct_applyOp m op hd)
    refine ⟨h1, fun k => ?_⟩
    rw [show applyOps m (op :: ops) = applyOps (applyOp m op) ops from rfl,
      h2 k, find_applyOp m op k hd]
    rfl

/-- Two maps with the same entry array and the same owner flag are
equal. -/
theorem FNeoDataMap.eq_of_fields (a b : FNeoDataMap)
    (h1 : a.items = b.items) (h2 : a.owner = b.owner) : a = b := by
  cases a
  cases b
  cases h1
  cases h2
  rfl

/-- Claim C1: evaluation of the code at the failing input. The two keys
have the same shape (tag 1) and identical declared field bytes, and
differ only in the padding byte, so the engine's per-property
`FInstancedStruct::operator==` makes them equal; yet `GetTypeHash`, which
is `FCrc::MemCrc32` over the raw struct memory including padding, gives
them different hashes. Hash and equality disagree because of padding
bytes — the latent bug the source's own WARNING comment (h:42-46)
acknowledges and the spec's §4.1 contract forbids. -/
theorem claim1_padding_hash_divergence :
    FRecordKey.eq exKeyA exKeyB = true ∧
    specLogicalFieldValues exLayout exKeyA.keyData.memory =
      specLogicalFieldValues exLayout exKeyB.keyData.memory ∧
    exKeyA.keyData.memory ≠ exKeyB.keyData.memory ∧
    GetTypeHash exKeyA ≠ GetTypeHash exKeyB := by
  decide

/-- Claim C2: when a configured key-type or value-type restriction is
violated, `SetData` returns without mutating anything: the component is
unchanged, `GetKeys` and every `GetData` result are the same as before,
and no notification is emitted. -/
theorem claim2_schema_reject (c : UNeoReplicatedDataComponent)
    (k : FRecordKey) (v : FRecordDefinition)
    (h : (∃ s, c.restrictedKeyType = some s ∧
            ¬ k.keyData.scriptStruct = some s) ∨
         (∃ s, c.restrictedValueType = some s ∧
            ¬ v.payload.scriptStruct = some s)) :
    (c.SetData k v).1 = c ∧ (c.SetData k v).2 = [] ∧
    (c.SetData k v).1.GetKeys = c.GetKeys ∧
    ∀ q, (c.SetData k v).1.GetData q = c.GetData q := by
  have hmain : c.SetData k v = (c, []) := by
    rcases h with ⟨s, hs, hne⟩ | ⟨s, hs, hne⟩
    · have hk : c.KeyTypeRejected k = true := by
        simp [UNeoReplicatedDataComponent.KeyTypeRejected, hs, hne]
      simp [UNeoReplicatedDataComponent.SetData, hk]
    · have hv : c.ValueTypeRejected v = true := by
        simp [UNeoReplicatedDataComponent.ValueTypeRejected, hs, hne]
      by_cases hk : c.KeyTypeRejected k = true
      · simp [UNeoReplicatedDataComponent.SetData, hk]
      · rw [Bool.not_eq_true] at hk
        simp [UNeoReplicatedDataComponent.SetData, hk, hv]
  refine ⟨?_, ?_, ?_, ?_⟩
  · rw [hmain]
  · rw [hmain]
  · rw [hmain]
  · intro q
    rw [hmain]

/-- Witness for C2: the key-restricted component silently drops a
mismatching key. -/
theorem claim2_schema_reject_witness :
    (wComp.SetData wKey1 wVal1).1 = wComp ∧
    (wComp.SetData wKey1 wVal1).2 = [] ∧
    (wComp.SetData wKey1 wVal1).1.GetData wKey2 = wComp.GetData wKey2 := by
  have h := claim2_schema_reject wComp wKey1 wVal1
    (Or.inl ⟨5, rfl, by decide⟩)
  exact ⟨h.1, h.2.1, h.2.2.2 wKey2⟩

/-- Claim C3: starting from the empty store, every sequence of
`AddOrUpdate`/`Remove` calls leaves at most one entry per distinct key —
no two stored keys match under `FRecordKey::operator==`, so the key list
is in particular duplicate-free — and `Find` returns exactly the value
of the most recent `AddOrUpdate` of the key not followed by a `Remove`
of that key, `none` otherwise. -/
theorem claim3_store_invariant (o : Bool) (ops : List StoreOp)
    (k : FRecordKey) :
    distinctKeys (applyOps (FNeoDataMap.mk [] o) ops).items ∧
    ((applyOps (FNeoDataMap.mk [] o) ops).items.map FNeoDataEntry.key).Nodup ∧
    (applyOps (FNeoDataMap.mk [] o) ops).Find k = specMostRecentValue ops k := by
  obtain ⟨h1, h2⟩ := applyOps_spec ops (FNeoDataMap.mk [] o)
    (by simp [distinctKeys])
  refine ⟨h1, nodup_of_distinctKeys _ h1, ?_⟩
  rw [h2 k]
  rfl

/-- Claim C4: on a store satisfying the one-entry-per-key invariant with
the owner wired up, `AddOrUpdate` of an existing key emits exactly one
`Updated(key, value)` notification (and no `Added`), `AddOrUpdate` of an
absent key emits exactly one `Added(key, value)` notification (and no
`Updated`); in both cases the written value is found afterwards and
exactly one entry with that key exists. -/
theorem claim4_addOrUpdate_cases (m : FNeoDataMap) (k : FRecordKey)
    (v : FRecordDefinition)
    (hd : distinctKeys m.items) (ho : m.owner = true) :
    ((m.Find k).isSome = true →
      (m.AddOrUpdate k v).2 = [NeoEvent.updated k v]) ∧
    ((m.Find k).isSome = false →
      (m.AddOrUpdate k v).2 = [NeoEvent.added k v]) ∧
    (m.AddOrUpdate k v).1.Find k = some v ∧
    countKey (m.AddOrUpdate k v).1.items k = 1 := by
  have hflag := addOrUpdateItems_flag m.items k v
  have hiso := findIn_isSome_eq_contains k m.items
  refine ⟨?_, ?_, ?_, ?_⟩
  · intro h
    have hc : containsKey m.items k = true := by rw [← hiso]; exact h
    simp [FNeoDataMap.AddOrUpdate, ho, hflag, hc]
  · intro h
    have hc : containsKey m.items k = false := by rw [← hiso]; exact h
    simp [FNeoDataMap.AddOrUpdate, ho, hflag, hc]
  · show FNeoDataMap.FindIn (m.AddOrUpdate k v).1.items k = some v
    rw [AddOrUpdate_items]
    exact findIn_addOrUpdate_self m.items k v
  · rw [AddOrUpdate_items]
    exact countKey_addOrUpdate_one m.items k v hd

/-- Witness for C4: adding a fresh key to a one-entry store. -/
theorem claim4_addOrUpdate_cases_witness :
    ((FNeoDataMap.mk [FNeoDataEntry.mk wKey2 wVal2] true).AddOrUpdate
      wKey1 wVal1).2 = [NeoEvent.added wKey1 wVal1] ∧
    ((FNeoDataMap.mk [FNeoDataEntry.mk wKey2 wVal2] true).AddOrUpdate
      wKey1 wVal1).1.Find wKey1 = some wVal1 ∧
    countKey ((FNeoDataMap.mk [FNeoDataEntry.mk wKey2 wVal2] true).AddOrUpdate
      wKey1 wVal1).1.items wKey1 = 1 := by
  have h := claim4_addOrUpdate_cases
    (FNeoDataMap.mk [FNeoDataEntry.mk wKey2 wVal2] true) wKey1 wVal1
    (by simp [distinctKeys]) rfl
  exact ⟨h.2.1 (by decide), h.2.2.1, h.2.2.2⟩

/-- Claim C5: with the owner wired up, removing a present key emits the
`Removed(key)` notification while the entry array still holds all
entries (the notification-time snapshot is the pre-removal array), and
removing an absent key changes nothing and emits nothing. -/
theorem claim5_remove_spec (m : FNeoDataMap) (k : FRecordKey)
    (ho : m.owner = true) :
    ((m.Find k).isSome = true →
      (m.RemoveTrace k).events = [NeoEvent.removed k] ∧
      (m.RemoveTrace k).snapshots = [m.items]) ∧
    ((m.Find k).isSome = false →
      (m.Remove k).1 = m ∧ (m.Remove k).2 = []) := by
  constructor
  · intro h
    have hc : containsKey m.items k = true := by
      rw [← findIn_isSome_eq_contains]
      exact h
    have hfound := removeLoop_found k m.items [] hc
    rw [FNeoDataMap.RemoveTrace, ho]
    simpa using hfound
  · intro h
    have hc : containsKey m.items k = false := by
      rw [← findIn_isSome_eq_contains]
      exact h
    have hloop := removeLoop_not_found m.owner k m.items [] hc
    constructor
    · refine FNeoDataMap.eq_of_fields _ _ ?_ rfl
      show (m.RemoveTrace k).items = m.items
      rw [FNeoDataMap.RemoveTrace, hloop]
      simp
    · show (m.RemoveTrace k).events = []
      rw [FNeoDataMap.RemoveTrace, hloop]

/-- Witness for C5: removing the sole key of a one-entry store notifies
while the entry is still stored. -/
theorem claim5_remove_spec_witness :
    ((FNeoDataMap.mk [FNeoDataEntry.mk wKey1 wVal1] true).RemoveTrace
      wKey1).events = [NeoEvent.removed wKey1] ∧
    ((FNeoDataMap.mk [FNeoDataEntry.mk wKey1 wVal1] true).RemoveTrace
      wKey1).snapshots = [[FNeoDataEntry.mk wKey1 wVal1]] := by
  have h := claim5_remove_spec
    (FNeoDataMap.mk [FNeoDataEntry.mk wKey1 wVal1] true) wKey1 rfl
  exact h.1 (by decide)

/-- Claim C6: on a store satisfying the one-entry-per-key invariant,
`AddOrUpdate(key, value)` twice leaves the same entries as once, and
`Remove(key)` twice leaves the same entries as once. -/
theorem claim6_idempotent (m : FNeoDataMap) (k : FRecordKey)
    (v : FRecordDefinition)
    (hd : distinctKeys m.items) :
    ((m.AddOrUpdate k v).1.AddOrUpdate k v).1 = (m.AddOrUpdate k v).1 ∧
    ((m.Remove k).1.Remove k).1 = (m.Remove k).1 := by
  constructor
  · refine FNeoDataMap.eq_of_fields _ _ ?_ rfl
    rw [AddOrUpdate_items, AddOrUpdate_items, addOrUpdateItems_idem]
  · refine FNeoDataMap.eq_of_fields _ _ ?_ rfl
    rw [Remove_items, Remove_items, removeSimple_idem m.items k hd]

/-- Witness for C6 on a one-entry store. -/
theorem claim6_idempotent_witness :
    (((FNeoDataMap.mk [FNeoDataEntry.mk wKey1 wVal1] true).AddOrUpdate
        wKey1 wVal2).1.AddOrUpdate wKey1 wVal2).1 =
      ((FNeoDataMap.mk [FNeoDataEntry.mk wKey1 wVal1] true).AddOrUpdate
        wKey1 wVal2).1 ∧
    (((FNeoDataMap.mk [FNeoDataEntry.mk wKey1 wVal1] true).Remove
        wKey1).1.Remove wKey1).1 =
      ((FNeoDataMap.mk [FNeoDataEntry.mk wKey1 wVal1] true).Remove wKey1).1 :=
  claim6_idempotent (FNeoDataMap.mk [FNeoDataEntry.mk wKey1 wVal1] true)
    wKey1 wVal2 (by simp [distinctKeys])

/-- Claim C7: on a store satisfying the one-entry-per-key invariant,
`Remove(K)` followed by `AddOrUpdate(K, V)` leaves exactly one entry for
`K`, and its value is the re-added `V` — the key is never left absent. -/
theorem claim7_remove_then_add (m : FNeoDataMap) (k : FRecordKey)
    (v : FRecordDefinition)
    (hd : distinctKeys m.items) :
    ((m.Remove k).1.AddOrUpdate k v).1.Find k = some v ∧
    countKey ((m.Remove k).1.AddOrUpdate k v).1.items k = 1 := by
  have hitems : ((m.Remove k).1.AddOrUpdate k v).1.items =
      (addOrUpdateItems (removeSimple m.items k) k v).1 := by
    rw [AddOrUpdate_items, Remove_items]
  constructor
  · show FNeoDataMap.FindIn ((m.Remove k).1.AddOrUpdate k v).1.items k = some v
    rw [hitems]
    exact findIn_addOrUpdate_self _ k v
  · rw [hitems]
    exact countKey_addOrUpdate_one (removeSimple m.items k) k v
      (distinct_removeSimple m.items k hd)

/-- Witness for C7: remove-then-re-add of the stored key. -/
theorem claim7_remove_then_add_witness :
    (((FNeoDataMap.mk [FNeoDataEntry.mk wKey1 wVal1] true).Remove
        wKey1).1.AddOrUpdate wKey1 wVal2).1.Find wKey1 = some wVal2 ∧
    countKey (((FNeoDataMap.mk [FNeoDataEntry.mk wKey1 wVal1] true).Remove
        wKey1).1.AddOrUpdate wKey1 wVal2).1.items wKey1 = 1 :=
  claim7_remove_then_add (FNeoDataMap.mk [FNeoDataEntry.mk wKey1 wVal1] true)
    wKey1 wVal2 (by simp [distinctKeys])

/-- Claim C8: `GetKeys` returns exactly the keys of the current entries,
in internal storage order. (The returned array is built fresh by the
loop — the C++ returns it by value — so the sequence is a pure function
of the state at call time, which the embedding renders as this equation;
later mutations produce a new state and cannot affect a value already
returned.) -/
theorem claim8_getKeys_snapshot (c : UNeoReplicatedDataComponent) :
    c.GetKeys = c.dataMap.items.map FNeoDataEntry.key := by
  have aux : ∀ (items : List FNeoDataEntry) (acc : List FRecordKey),
      items.foldl (fun keys e => keys ++ [e.key]) acc =
        acc ++ items.map FNeoDataEntry.key := by
    intro items
    induction items with
    | nil => intro acc; simp
    | cons e rest ih =>
      intro acc
      simp [List.foldl_cons, ih]
  show c.dataMap.items.foldl (fun keys e => keys ++ [e.key]) [] = _
  simpa using aux c.dataMap.items []

/-- Claim C9: `FNeoDataEntry::operator==` compares only the keys — two
entries with the same key and different values compare equal, entry
equality is literally key equality — and lookup success in the store
depends only on the stored key list, never on the stored values. -/
theorem claim9_entry_eq_ignores_value :
    (∀ (k : FRecordKey) (v1 v2 : FRecordDefinition),
      FNeoDataEntry.eq (FNeoDataEntry.mk k v1) (FNeoDataEntry.mk k v2) = true) ∧
    (∀ a b : FNeoDataEntry,
      FNeoDataEntry.eq a b = FRecordKey.eq a.key b.key) ∧
    (∀ (items1 items2 : List FNeoDataEntry) (k : FRecordKey),
      items1.map FNeoDataEntry.key = items2.map FNeoDataEntry.key →
      (FNeoDataMap.FindIn items1 k).isSome =
        (FNeoDataMap.FindIn items2 k).isSome) := by
  refine ⟨fun k v1 v2 => FRecordKey.eq_refl k, fun a b => rfl, ?_⟩
  intro items1
  induction items1 with
  | nil =>
    intro items2 k h
    cases items2 with
    | nil => rfl
    | cons e2 rest2 => simp at h
  | cons e rest ih =>
    intro items2 k h
    cases items2 with
    | nil => simp at h
    | cons e2 rest2 =>
      simp only [List.map_cons, List.cons.injEq] at h
      simp only [FNeoDataMap.FindIn, h.1]
      by_cases hk : FRecordKey.eq e2.key k = true
      · simp [hk]
      · rw [Bool.not_eq_true] at hk
        simp [hk, ih rest2 k h.2]

/-- Witness for C9 at concrete entries and stores. -/
theorem claim9_entry_eq_ignores_value_witness :
    FNeoDataEntry.eq (FNeoDataEntry.mk wKey1 wVal1)
      (FNeoDataEntry.mk wKey1 wVal2) = true ∧
    (FNeoDataMap.FindIn [FNeoDataEntry.mk wKey1 wVal1] wKey1).isSome =
      (FNeoDataMap.FindIn [FNeoDataEntry.mk wKey1 wVal2] wKey1).isSome := by
  refine ⟨claim9_entry_eq_ignores_value.1 wKey1 wVal1 wVal2, ?_⟩
  exact claim9_entry_eq_ignores_value.2.2 [FNeoDataEntry.mk wKey1 wVal1]
    [FNeoDataEntry.mk wKey1 wVal2] wKey1 (by decide)

/-- Claim C10: on a map whose owner back-reference is null, `AddOrUpdate`
and `Remove` mutate the entry array exactly as they do with an owner
set, but broadcast no notification; the replication hooks are likewise
silent. -/
theorem claim10_null_owner (items : List FNeoDataEntry) (k : FRecordKey)
    (v : FRecordDefinition) (e : FNeoDataEntry) :
    ((FNeoDataMap.mk items false).AddOrUpdate k v).1.items =
      ((FNeoDataMap.mk items true).AddOrUpdate k v).1.items ∧
    ((FNeoDataMap.mk items false).AddOrUpdate k v).2 = [] ∧
    ((FNeoDataMap.mk items false).Remove k).1.items =
      ((FNeoDataMap.mk items true).Remove k).1.items ∧
    ((FNeoDataMap.mk items false).Remove k).2 = [] ∧
    e.PreReplicatedRemove (FNeoDataMap.mk items false) = [] ∧
    e.PostReplicatedAdd (FNeoDataMap.mk items false) = [] ∧
    e.PostReplicatedChange (FNeoDataMap.mk items false) = [] := by
  refine ⟨rfl, rfl, ?_, ?_, rfl, rfl, rfl⟩
  · rw [Remove_items, Remove_items]
  · show ((FNeoDataMap.mk items false).RemoveTrace k).events = []
    rw [FNeoDataMap.RemoveTrace]
    exact (removeLoop_no_owner k items []).1

end NeoDataSync
